import Mathlib

/-!
Verification of the exonum-btc-anchoring service against its specification.

The Rust sources under src/ are embedded shallowly: configuration
(src/config.rs), service lifecycle (src/service.rs), the Bitcoin sync task
(described by the spec and exercised by tests/sync.rs) and the
protobuf-backed BinaryMap codec (src/proto/binary_map.rs).  Unsigned 64-bit
quantities are modelled as Nat; the single arithmetic operation that can
overflow carries an explicit reduction modulo 2 ^ 64, and operations that
panic in Rust return none.
-/

namespace BtcAnchoring

/-- Bitcoin network kind (bitcoin::network::constants::Network). -/
inductive Network where
  | mainnet
  | testnet
  | regtest
  | signet
  deriving DecidableEq, Repr

/-- A committee member entry (proto AnchoringKeys): the Bitcoin public key
and the host-chain service key, both modelled as opaque identifiers. -/
structure AnchoringKeys where
  bitcoin_key : Nat
  service_key : Nat
  deriving DecidableEq, Repr

/-- A quorum-of-N multisig redeem script over the listed Bitcoin keys
(btc_transaction_utils RedeemScript, kept at the level of its content). -/
structure RedeemScript where
  keys : List Nat
  quorum : Nat
  deriving DecidableEq, Repr

/-- A Bitcoin output script: either the v0 P2WSH script of a redeem script
or some other script, identified opaquely. -/
inductive Script where
  | p2wsh (rs : RedeemScript)
  | other (code : Nat)
  deriving DecidableEq, Repr

/-- A Bitcoin transaction output. -/
structure TxOut where
  value : Nat
  script_pubkey : Script
  deriving DecidableEq, Repr

/-- A Bitcoin transaction, reduced to the parts the claims need: its id, the
id referenced by its first input, and its outputs. -/
structure Transaction where
  txid : Nat
  prev_tx_id : Nat
  outputs : List TxOut
  deriving DecidableEq, Repr

/-- The anchoring configuration (src/config.rs, proto Config). -/
structure Config where
  network : Network
  anchoring_keys : List AnchoringKeys
  anchoring_interval : Nat
  transaction_fee : Nat
  funding_transaction : Option Transaction
  deriving DecidableEq, Repr

/-- Modelled from the spec: exonum State.byzantine_majority_count, the
Byzantine quorum 2N/3 + 1 that config.rs byzantine_quorum delegates to
(the exonum crate is an external collaborator of this repository). -/
def byzantineQuorum (total : Nat) : Nat :=
  total * 2 / 3 + 1

/-- Failure cases of the external redeem-script builder. -/
inductive RedeemScriptError where
  | notEnoughPublicKeys
  | incorrectQuorum
  deriving DecidableEq, Repr

/-- Modelled from the spec: RedeemScriptBuilder.to_script of the external
btc_transaction_utils crate fails when the key list is empty or the quorum
is not between 1 and the number of keys, and otherwise yields the
quorum-of-N multisig redeem script over the given keys. -/
def toScript (keys : List Nat) (quorum : Nat) : Except RedeemScriptError RedeemScript :=
  if keys.isEmpty then .error .notEnoughPublicKeys
  else if quorum = 0 ∨ keys.length < quorum then .error .incorrectQuorum
  else .ok { keys := keys, quorum := quorum }

/-- Config.redeem_script (src/config.rs): builds the redeem script over the
committee Bitcoin keys with the Byzantine quorum.  The source unwraps the
builder result, so a builder error is a panic, modelled as none. -/
def Config.redeemScript (c : Config) : Option RedeemScript :=
  (toScript (c.anchoring_keys.map (fun x => x.bitcoin_key))
    (byzantineQuorum c.anchoring_keys.length)).toOption

/-- A P2WSH anchoring address, modelled as the data it is derived from;
address equality stands for equality of redeem script and network. -/
structure Address where
  script : RedeemScript
  network : Network
  deriving DecidableEq, Repr

/-- Modelled from the spec: p2wsh.address of btc_transaction_utils derives
the P2WSH address of a redeem script on a network. -/
def p2wshAddress (rs : RedeemScript) (network : Network) : Address :=
  { script := rs, network := network }

/-- Config.anchoring_address (src/config.rs); none when the redeem-script
construction panics. -/
def Config.anchoringAddress (c : Config) : Option Address :=
  c.redeemScript.map (fun rs => p2wshAddress rs c.network)

/-- Script.to_v0_p2wsh of the external bitcoin crate: the output script
paying to the P2WSH hash of a redeem script. -/
def toV0P2wsh (rs : RedeemScript) : Script :=
  Script.p2wsh rs

/-- Config.previous_anchoring_height (src/config.rs):
Height(h - h % anchoring_interval).  The Rust remainder panics when the
interval is zero, modelled as none; the u64 subtraction cannot underflow
because h % i is at most h. -/
def Config.previousAnchoringHeight (c : Config) (h : Nat) : Option Nat :=
  if c.anchoring_interval = 0 then none
  else some (h - h % c.anchoring_interval)

/-- Config.following_anchoring_height (src/config.rs): the previous
anchoring height plus the interval, a u64 addition and hence reduced
modulo 2 ^ 64. -/
def Config.followingAnchoringHeight (c : Config) (h : Nat) : Option Nat :=
  (c.previousAnchoringHeight h).map (fun p => (p + c.anchoring_interval) % 2 ^ 64)

/-- Helper of Transaction.findOut: index of the first output paying to the
given script, counting from i. -/
def findOutAux (script : Script) : List TxOut → Nat → Option Nat
  | [], _ => none
  | o :: os, i =>
    if o.script_pubkey = script then some i else findOutAux script os (i + 1)

/-- Modelled from the spec: Transaction.find_out (src/btc, a file of this
repository absent from src/): the index of the first output paying exactly
to the given script, per the funding-output invariant of the spec. -/
def Transaction.findOut (tx : Transaction) (script : Script) : Option Nat :=
  findOutAux script tx.outputs 0

/-- Validation failures of Config.validate. -/
inductive ValidateError where
  | redeemScript (e : RedeemScriptError)
  | fundingUnsuitable
  deriving DecidableEq, Repr

/-- Config.validate (src/config.rs, impl ValidateInput): rebuild the redeem
script with the Byzantine quorum and, when a funding transaction is
configured, require an output paying to its v0 P2WSH script, failing with
the message about an unsuitable funding transaction otherwise.  The
anchoring interval is NOT validated (the source leaves a TODO there). -/
def Config.validate (c : Config) : Except ValidateError Unit :=
  match toScript (c.anchoring_keys.map (fun x => x.bitcoin_key))
      (byzantineQuorum c.anchoring_keys.length) with
  | .error e => .error (.redeemScript e)
  | .ok redeem_script =>
    match c.funding_transaction with
    | some tx =>
      match tx.findOut (toV0P2wsh redeem_script) with
      | some _ => .ok ()
      | none => .error .fundingUnsuitable
    | none => .ok ()

/-- C1: for a committee of N greater or equal 1 keys, Config.redeem_script
succeeds and the quorum of the derived redeem script is the Byzantine
quorum, 2N/3 + 1 rounded down. -/
theorem c1_redeem_script_quorum (c : Config) (hN : 1 ≤ c.anchoring_keys.length) :
    ∃ rs, c.redeemScript = some rs ∧
      rs.quorum = 2 * c.anchoring_keys.length / 3 + 1 := by
  have hlen : (c.anchoring_keys.map (fun x => x.bitcoin_key)).length
      = c.anchoring_keys.length := by simp
  have hne : (c.anchoring_keys.map (fun x => x.bitcoin_key)).isEmpty = false := by
    rcases hk : c.anchoring_keys with _ | ⟨k, ks⟩
    · rw [hk] at hN
      simp at hN
    · rfl
  have hq : ¬ (byzantineQuorum c.anchoring_keys.length = 0 ∨
      (c.anchoring_keys.map (fun x => x.bitcoin_key)).length
        < byzantineQuorum c.anchoring_keys.length) := by
    unfold byzantineQuorum
    rw [hlen]
    omega
  refine ⟨{ keys := c.anchoring_keys.map (fun x => x.bitcoin_key),
            quorum := byzantineQuorum c.anchoring_keys.length }, ?_, ?_⟩
  · unfold Config.redeemScript toScript
    rw [hne]
    rw [if_neg Bool.false_ne_true, if_neg hq]
    rfl
  · show byzantineQuorum c.anchoring_keys.length = 2 * c.anchoring_keys.length / 3 + 1
    unfold byzantineQuorum
    omega

/-- Witness for C1 at a four-member committee: the quorum is 3. -/
theorem c1_redeem_script_quorum_witness :
    (1 : Nat) ≤ ([{ bitcoin_key := 1, service_key := 1 },
      { bitcoin_key := 2, service_key := 2 },
      { bitcoin_key := 3, service_key := 3 },
      { bitcoin_key := 4, service_key := 4 }] : List AnchoringKeys).length ∧
    ∃ rs,
      (Config.redeemScript
        { network := Network.testnet,
          anchoring_keys := [{ bitcoin_key := 1, service_key := 1 },
            { bitcoin_key := 2, service_key := 2 },
            { bitcoin_key := 3, service_key := 3 },
            { bitcoin_key := 4, service_key := 4 }],
          anchoring_interval := 5000, transaction_fee := 10,
          funding_transaction := none }) = some rs ∧
      rs.quorum = 2 * ([{ bitcoin_key := 1, service_key := 1 },
        { bitcoin_key := 2, service_key := 2 },
        { bitcoin_key := 3, service_key := 3 },
        { bitcoin_key := 4, service_key := 4 }] : List AnchoringKeys).length / 3 + 1 :=
  ⟨by decide,
    c1_redeem_script_quorum
      { network := Network.testnet,
        anchoring_keys := [{ bitcoin_key := 1, service_key := 1 },
          { bitcoin_key := 2, service_key := 2 },
          { bitcoin_key := 3, service_key := 3 },
          { bitcoin_key := 4, service_key := 4 }],
        anchoring_interval := 5000, transaction_fee := 10,
        funding_transaction := none }
      (by decide)⟩

/-- Configuration used by the counterexample to C2: a maximal u64
anchoring interval. -/
def c2Config : Config :=
  { network := Network.testnet,
    anchoring_keys := [{ bitcoin_key := 1, service_key := 1 }],
    anchoring_interval := 2 ^ 64 - 1, transaction_fee := 10,
    funding_transaction := none }

/-- C2 as stated fails: at interval 2 ^ 64 - 1 and height 2 ^ 64 - 1 (both
valid u64 values, interval at least 1) the u64 addition inside
following_anchoring_height wraps, so the result differs from the
mathematical previous height plus interval. -/
theorem c2_counterexample :
    1 ≤ c2Config.anchoring_interval ∧ (2 ^ 64 - 1 : Nat) < 2 ^ 64 ∧
    c2Config.followingAnchoringHeight (2 ^ 64 - 1) ≠
      (c2Config.previousAnchoringHeight (2 ^ 64 - 1)).map
        (fun p => p + c2Config.anchoring_interval) := by
  refine ⟨by decide, by decide, ?_⟩
  decide

/-- C2 amended: for interval at least 1 and a u64 height, the previous
anchoring height is h - (h mod interval); the following anchoring height is
the previous one plus the interval whenever that u64 sum does not wrap
(in general it is that sum reduced modulo 2 ^ 64). -/
theorem c2_amended_heights (c : Config) (h : Nat) (h1 : 1 ≤ c.anchoring_interval)
    (_h2 : h < 2 ^ 64)
    (h3 : h - h % c.anchoring_interval + c.anchoring_interval < 2 ^ 64) :
    c.previousAnchoringHeight h = some (h - h % c.anchoring_interval) ∧
    c.followingAnchoringHeight h =
      some (h - h % c.anchoring_interval + c.anchoring_interval) := by
  have hi : ¬ c.anchoring_interval = 0 := by omega
  constructor
  · simp [Config.previousAnchoringHeight, hi]
  · have hp : c.previousAnchoringHeight h = some (h - h % c.anchoring_interval) := by
      simp [Config.previousAnchoringHeight, hi]
    unfold Config.followingAnchoringHeight
    rw [hp, Option.map_some']
    congr 1
    exact Nat.mod_eq_of_lt h3

/-- Configuration used by the witness for the amended C2. -/
def c2WitnessConfig : Config :=
  { network := Network.testnet,
    anchoring_keys := [{ bitcoin_key := 1, service_key := 1 }],
    anchoring_interval := 5, transaction_fee := 10,
    funding_transaction := none }

/-- Witness for the amended C2 at interval 5 and height 13: the previous
anchoring height is 10 and the following one is 15. -/
theorem c2_amended_heights_witness :
    1 ≤ c2WitnessConfig.anchoring_interval ∧ (13 : Nat) < 2 ^ 64 ∧
    13 - 13 % c2WitnessConfig.anchoring_interval
      + c2WitnessConfig.anchoring_interval < 2 ^ 64 ∧
    (c2WitnessConfig.previousAnchoringHeight 13
        = some (13 - 13 % c2WitnessConfig.anchoring_interval) ∧
      c2WitnessConfig.followingAnchoringHeight 13
        = some (13 - 13 % c2WitnessConfig.anchoring_interval
            + c2WitnessConfig.anchoring_interval)) :=
  ⟨by decide, by decide, by decide,
    c2_amended_heights c2WitnessConfig 13 (by decide) (by decide) (by decide)⟩

/-- The persistent indices of the anchoring schema
(blockchain/schema.rs as described by the spec; the slots and index types
match the spec data model).  Block hashes are opaque identifiers. -/
structure Schema where
  actual_config : Option Config
  following_config : Option Config
  unspent_funding_transaction : Option Transaction
  spent_funding_transactions : List Nat
  anchoring_txs_chain : List Transaction
  transaction_signatures : List ((Nat × Nat) × List (Nat × Nat))
  anchored_blocks : List Nat
  deriving DecidableEq, Repr

/-- The schema before service genesis: every slot empty. -/
def emptySchema : Schema :=
  { actual_config := none, following_config := none,
    unspent_funding_transaction := none, spent_funding_transactions := [],
    anchoring_txs_chain := [], transaction_signatures := [],
    anchored_blocks := [] }

/-- Execution errors surfaced by the service lifecycle handlers. -/
inductive ExecutionError where
  | unauthorizedCaller
  | malformedArguments
  deriving DecidableEq, Repr

/-- Service.initialize of BtcAnchoringService (src/service.rs), modelled at
the level of the already protobuf-decoded Config (decoding the raw
parameter bytes is done by the external exonum codec): validate the config;
on failure report malformed arguments and write nothing; on success write
the funding transaction into the unspent slot when present, then install
the config into actual_config. -/
def initService (s : Schema) (params : Config) : Except ExecutionError Schema :=
  match params.validate with
  | .error _ => .error .malformedArguments
  | .ok () =>
    let s1 := match params.funding_transaction with
      | some tx => { s with unspent_funding_transaction := some tx }
      | none => s
    .ok { s1 with actual_config := some params }

/-- BtcAnchoringService.before_commit (src/service.rs): push the hash of
the latest committed block onto anchored_blocks, leaving every other index
alone; the source panics (modelled as none) when the core schema holds no
block hashes, which happens exactly during genesis-block initialization. -/
def beforeCommit (blockHashes : List Nat) (s : Schema) : Option Schema :=
  match blockHashes.getLast? with
  | none => none
  | some hb => some { s with anchored_blocks := s.anchored_blocks ++ [hb] }

/-- BtcAnchoringService.apply_config (src/service.rs).  The boolean records
whether the caller is the supervisor; a non-supervisor caller is rejected.
Otherwise the funding transaction, when present, is written first into the
unspent slot unconditionally; then the config is installed into
actual_config when its anchoring address equals the one of the actual
config, and into following_config otherwise.  Reading the actual config
from an uninitialized slot or deriving an address over an empty committee
panics (modelled as none). -/
def applyConfig (supervisorCaller : Bool) (s : Schema) (params : Config) :
    Option (Except ExecutionError Schema) :=
  match supervisorCaller with
  | false => some (.error .unauthorizedCaller)
  | true =>
    let s1 := match params.funding_transaction with
      | some tx => { s with unspent_funding_transaction := some tx }
      | none => s
    match s1.actual_config with
    | none => none
    | some actual =>
      match actual.anchoringAddress, params.anchoringAddress with
      | some a, some b =>
        if a = b then some (.ok { s1 with actual_config := some params })
        else some (.ok { s1 with following_config := some params })
      | _, _ => none

/-- C3: a supervisor-authorized apply_config installs the proposed config
into actual_config when its anchoring address equals the one of the current
actual config, and into following_config (leaving actual_config unchanged)
otherwise. -/
theorem c3_apply_config_routing (s : Schema) (params actual : Config)
    (a b : Address) (hact : s.actual_config = some actual)
    (ha : actual.anchoringAddress = some a)
    (hb : params.anchoringAddress = some b) :
    ∃ s', applyConfig true s params = some (Except.ok s') ∧
      (if b = a then
        s'.actual_config = some params ∧ s'.following_config = s.following_config
      else
        s'.following_config = some params ∧ s'.actual_config = s.actual_config) := by
  cases hf : params.funding_transaction with
  | none =>
    by_cases hab : a = b
    · refine ⟨{ s with actual_config := some params }, ?_, ?_⟩
      · simp [applyConfig, hf, hact, ha, hb, hab]
      · rw [if_pos hab.symm]
        exact ⟨rfl, rfl⟩
    · refine ⟨{ s with following_config := some params }, ?_, ?_⟩
      · simp [applyConfig, hf, hact, ha, hb, hab]
      · rw [if_neg fun hh => hab hh.symm]
        exact ⟨rfl, rfl⟩
  | some tx =>
    by_cases hab : a = b
    · refine ⟨{ s with
        unspent_funding_transaction := some tx,
        actual_config := some params }, ?_, ?_⟩
      · simp [applyConfig, hf, hact, ha, hb, hab]
      · rw [if_pos hab.symm]
        exact ⟨rfl, rfl⟩
    · refine ⟨{ s with
        unspent_funding_transaction := some tx,
        following_config := some params }, ?_, ?_⟩
      · simp [applyConfig, hf, hact, ha, hb, hab]
      · rw [if_neg fun hh => hab hh.symm]
        exact ⟨rfl, rfl⟩

/-- Actual configuration installed in the schema of the C3 witness. -/
def c3Actual : Config :=
  { network := Network.testnet,
    anchoring_keys := [{ bitcoin_key := 1, service_key := 1 }],
    anchoring_interval := 5000, transaction_fee := 10,
    funding_transaction := none }

/-- Schema used by the C3 witness: an installed one-member configuration. -/
def c3Schema : Schema :=
  { emptySchema with actual_config := some c3Actual }

/-- Proposed configuration of the C3 witness: a different committee, hence
a different anchoring address. -/
def c3Params : Config :=
  { network := Network.testnet,
    anchoring_keys := [{ bitcoin_key := 2, service_key := 2 },
      { bitcoin_key := 3, service_key := 3 }],
    anchoring_interval := 5000, transaction_fee := 10,
    funding_transaction := none }

/-- Witness for C3: with a changed committee the proposed config lands in
following_config and actual_config keeps its value. -/
theorem c3_apply_config_routing_witness :
    c3Schema.actual_config = some c3Actual ∧
    c3Actual.anchoringAddress
      = some (p2wshAddress { keys := [1], quorum := 1 } Network.testnet) ∧
    c3Params.anchoringAddress
      = some (p2wshAddress { keys := [2, 3], quorum := 2 } Network.testnet) ∧
    ∃ s', applyConfig true c3Schema c3Params = some (Except.ok s') ∧
      (if p2wshAddress { keys := [2, 3], quorum := 2 } Network.testnet
          = p2wshAddress { keys := [1], quorum := 1 } Network.testnet then
        s'.actual_config = some c3Params ∧
          s'.following_config = c3Schema.following_config
      else
        s'.following_config = some c3Params ∧
          s'.actual_config = c3Schema.actual_config) :=
  ⟨rfl, rfl, rfl,
    c3_apply_config_routing c3Schema c3Params c3Actual
      (p2wshAddress { keys := [1], quorum := 1 } Network.testnet)
      (p2wshAddress { keys := [2, 3], quorum := 2 } Network.testnet)
      rfl rfl rfl⟩

/-- The failing input of C6: a well-formed one-member committee whose
anchoring interval is 0, violating the spec invariant that the interval is
at least 1. -/
def c6Params : Config :=
  { network := Network.testnet,
    anchoring_keys := [{ bitcoin_key := 1, service_key := 2 }],
    anchoring_interval := 0, transaction_fee := 10,
    funding_transaction := none }

/-- C6 names a code bug: Config.validate never inspects anchoring_interval
(the source leaves a TODO in its place), so the service accepts an interval
of 0 and installs the configuration instead of rejecting it as malformed
arguments. -/
theorem c6_interval_zero_accepted :
    c6Params.anchoring_interval = 0 ∧
    c6Params.validate = Except.ok () ∧
    initService emptySchema c6Params
      = Except.ok { emptySchema with actual_config := some c6Params } :=
  ⟨rfl, rfl, rfl⟩

/-- Every output of findOutAux points at an output with the wanted script. -/
theorem findOutAux_some (script : Script) (l : List TxOut) (i j : Nat)
    (h : findOutAux script l i = some j) :
    ∃ out ∈ l, out.script_pubkey = script := by
  induction l generalizing i with
  | nil => simp [findOutAux] at h
  | cons o os ih =>
    by_cases ho : o.script_pubkey = script
    · exact ⟨o, by simp, ho⟩
    · rw [findOutAux, if_neg ho] at h
      obtain ⟨out, hmem, hout⟩ := ih (i + 1) h
      exact ⟨out, by simp [hmem], hout⟩

/-- findOutAux finds nothing exactly when no output has the wanted script. -/
theorem findOutAux_none (script : Script) (l : List TxOut) (i : Nat)
    (h : ∀ out ∈ l, out.script_pubkey ≠ script) :
    findOutAux script l i = none := by
  induction l generalizing i with
  | nil => rfl
  | cons o os ih =>
    rw [findOutAux, if_neg (h o (by simp))]
    exact ih (i + 1) fun out hmem => h out (by simp [hmem])

/-- C7: when a funding transaction is configured and the redeem script
builds, validation succeeds only if some output of the funding transaction
pays exactly to the v0 P2WSH script of the redeem script, and when no
output does, validation fails with the unsuitable-funding error. -/
theorem c7_funding_validation (c : Config) (tx : Transaction) (rs : RedeemScript)
    (htx : c.funding_transaction = some tx)
    (hrs : toScript (c.anchoring_keys.map (fun x => x.bitcoin_key))
      (byzantineQuorum c.anchoring_keys.length) = Except.ok rs) :
    (c.validate = Except.ok () →
      ∃ out ∈ tx.outputs, out.script_pubkey = toV0P2wsh rs) ∧
    ((∀ out ∈ tx.outputs, out.script_pubkey ≠ toV0P2wsh rs) →
      c.validate = Except.error ValidateError.fundingUnsuitable) := by
  constructor
  · intro hval
    simp only [Config.validate, hrs, htx] at hval
    cases hfo : tx.findOut (toV0P2wsh rs) with
    | none =>
      simp only [hfo] at hval
      exact Except.noConfusion hval
    | some j =>
      exact findOutAux_some (toV0P2wsh rs) tx.outputs 0 j hfo
  · intro hno
    have hfo : tx.findOut (toV0P2wsh rs) = none :=
      findOutAux_none (toV0P2wsh rs) tx.outputs 0 hno
    simp only [Config.validate, hrs, htx, hfo]

/-- Funding transaction of the C7 witness: it pays only to a foreign
script. -/
def c7Funding : Transaction :=
  { txid := 99, prev_tx_id := 98,
    outputs := [{ value := 1000, script_pubkey := Script.other 7 }] }

/-- Config of the C7 witness: its funding transaction pays only to a
foreign script, so validation rejects it as unsuitable. -/
def c7Config : Config :=
  { network := Network.testnet,
    anchoring_keys := [{ bitcoin_key := 1, service_key := 1 }],
    anchoring_interval := 5000, transaction_fee := 10,
    funding_transaction := some c7Funding }

/-- Witness for C7 at a funding transaction without a matching output. -/
theorem c7_funding_validation_witness :
    c7Config.funding_transaction = some c7Funding ∧
    toScript (c7Config.anchoring_keys.map (fun x => x.bitcoin_key))
      (byzantineQuorum c7Config.anchoring_keys.length)
      = Except.ok { keys := [1], quorum := 1 } ∧
    ((c7Config.validate = Except.ok () →
      ∃ out ∈ c7Funding.outputs,
        out.script_pubkey = toV0P2wsh { keys := [1], quorum := 1 }) ∧
    ((∀ out ∈ c7Funding.outputs,
        out.script_pubkey ≠ toV0P2wsh { keys := [1], quorum := 1 }) →
      c7Config.validate = Except.error ValidateError.fundingUnsuitable)) :=
  ⟨rfl, rfl,
    c7_funding_validation c7Config c7Funding
      { keys := [1], quorum := 1 } rfl rfl⟩

/-- C9: when the core schema holds at least one block hash, before_commit
appends exactly the hash of the latest committed block to anchored_blocks
and leaves every other index unchanged (so its panic branch is
unreachable); called with no block hashes, as during genesis-block
initialization, it panics. -/
theorem c9_before_commit (blockHashes : List Nat) (s : Schema)
    (hne : blockHashes ≠ []) :
    (∃ hb, blockHashes.getLast? = some hb ∧
      beforeCommit blockHashes s =
        some { s with anchored_blocks := s.anchored_blocks ++ [hb] }) ∧
    beforeCommit [] s = none := by
  constructor
  · have hsome : blockHashes.getLast?.isSome := by
      rw [List.getLast?_isSome]
      exact hne
    obtain ⟨hb, hhb⟩ := Option.isSome_iff_exists.mp hsome
    refine ⟨hb, hhb, ?_⟩
    unfold beforeCommit
    rw [hhb]
  · rfl

/-- Witness for C9 at the one-block history [7] over the empty schema. -/
theorem c9_before_commit_witness :
    (∃ hb, ([7] : List Nat).getLast? = some hb ∧
      beforeCommit [7] emptySchema =
        some { emptySchema with
          anchored_blocks := emptySchema.anchored_blocks ++ [hb] }) ∧
    beforeCommit [] emptySchema = none :=
  c9_before_commit [7] emptySchema (by decide)

/-- C10: whenever a supervisor-authorized apply_config succeeds and the
proposed config carries a funding transaction, the unspent funding slot is
overwritten with it, regardless of which config slot received the config
and of the previous contents of the schema. -/
theorem c10_funding_set_unconditionally (s : Schema) (params : Config)
    (tx : Transaction) (s' : Schema)
    (htx : params.funding_transaction = some tx)
    (hres : applyConfig true s params = some (Except.ok s')) :
    s'.unspent_funding_transaction = some tx := by
  simp only [applyConfig, htx] at hres
  cases hact : s.actual_config with
  | none =>
    simp only [hact] at hres
    exact Option.noConfusion hres
  | some actual =>
    simp only [hact] at hres
    cases haa : actual.anchoringAddress with
    | none =>
      simp only [haa] at hres
      exact Option.noConfusion hres
    | some a =>
      cases hpa : params.anchoringAddress with
      | none =>
        simp only [haa, hpa] at hres
        exact Option.noConfusion hres
      | some b =>
        simp only [haa, hpa] at hres
        by_cases hab : a = b
        · rw [if_pos hab] at hres
          have h1 := Option.some.inj hres
          have h2 := Except.ok.inj h1
          rw [← h2]
        · rw [if_neg hab] at hres
          have h1 := Option.some.inj hres
          have h2 := Except.ok.inj h1
          rw [← h2]

/-- Actual configuration installed in the schema of the C10 witness. -/
def c10Actual : Config :=
  { network := Network.testnet,
    anchoring_keys := [{ bitcoin_key := 1, service_key := 1 }],
    anchoring_interval := 5000, transaction_fee := 10,
    funding_transaction := none }

/-- Funding transaction already sitting in the unspent slot of the C10
witness schema. -/
def c10OldFunding : Transaction :=
  { txid := 50, prev_tx_id := 49, outputs := [] }

/-- Funding transaction carried by the proposed config of the C10 witness;
its id 77 is already recorded as spent. -/
def c10NewFunding : Transaction :=
  { txid := 77, prev_tx_id := 76, outputs := [] }

/-- Schema of the C10 witness: the unspent slot is already occupied and the
new funding transaction is even recorded as spent. -/
def c10Schema : Schema :=
  { emptySchema with
    actual_config := some c10Actual,
    unspent_funding_transaction := some c10OldFunding,
    spent_funding_transactions := [77] }

/-- Proposed config of the C10 witness: a changed committee carrying the
already-spent funding transaction 77. -/
def c10Params : Config :=
  { network := Network.testnet,
    anchoring_keys := [{ bitcoin_key := 2, service_key := 2 }],
    anchoring_interval := 5000, transaction_fee := 10,
    funding_transaction := some c10NewFunding }

/-- The schema produced by the C10 witness call: the config went into
following_config, yet the unspent slot holds the new funding transaction. -/
def c10Result : Schema :=
  { c10Schema with
    unspent_funding_transaction := some c10NewFunding,
    following_config := some c10Params }

/-- Witness for C10: the address changed, the slot was occupied, the
transaction is in the spent set, and the slot is still overwritten. -/
theorem c10_funding_set_unconditionally_witness :
    c10Params.funding_transaction = some c10NewFunding ∧
    applyConfig true c10Schema c10Params = some (Except.ok c10Result) ∧
    c10Result.unspent_funding_transaction = some c10NewFunding :=
  ⟨rfl, rfl,
    c10_funding_set_unconditionally c10Schema c10Params
      c10NewFunding c10Result rfl rfl⟩

/-- A call made to the Bitcoin relay (spec section 6): a confirmation query
for a transaction id or a broadcast of a transaction. -/
inductive RelayCall where
  | confirmations (txid : Nat)
  | send (tx : Transaction)
  deriving DecidableEq, Repr

/-- Errors of the Bitcoin sync task. -/
inductive SyncError where
  | unconfirmedFundingTransaction (txid : Nat)
  deriving DecidableEq, Repr

/-- Modelled from the spec: the backward walk of the sync task over the
given chain indices (descending), querying the relay for confirmations of
each transaction id and stopping at the first confirmed one; the second
component logs every relay query made. -/
def checkIndices (chain : List Transaction) (t0 : Transaction)
    (conf : Nat → Option Nat) : List Nat → Option Nat × List RelayCall
  | [] => (none, [])
  | i :: rest =>
    let txid := (chain.getD i t0).txid
    match conf txid with
    | some _ => (some i, [RelayCall.confirmations txid])
    | none =>
      let r := checkIndices chain t0 conf rest
      (r.1, RelayCall.confirmations txid :: r.2)

/-- Modelled from the spec: SyncWithBitcoinTask.process (src/sync.rs is a
file of this repository absent from src/; spec section 4.7 and
tests/sync.rs describe it).  With an empty anchoring chain it returns Ok
None at once, making no relay call.  Otherwise it walks backward from the
chain tip to the index following the last known confirmed one (or to 0),
asking the relay for confirmations; if some index is confirmed it
broadcasts the successor transaction when there is one; if none is
confirmed it queries the first transaction's previous tx id (the funding
transaction), failing when that is unconfirmed too and otherwise
broadcasting the first transaction.  The relay is a confirmation lookup;
the second component logs the relay calls in order. -/
def syncProcess (chain : List Transaction) (conf : Nat → Option Nat)
    (lastKnown : Option Nat) : Except SyncError (Option Nat) × List RelayCall :=
  match chain with
  | [] => (.ok none, [])
  | t0 :: _ =>
    let lower := match lastKnown with
      | some k => k + 1
      | none => 0
    let indices := ((List.range chain.length).filter (fun i => lower ≤ i)).reverse
    let r := checkIndices chain t0 conf indices
    match r.1 with
    | some c =>
      if c + 1 < chain.length then
        (.ok (some c), r.2 ++ [RelayCall.send (chain.getD (c + 1) t0)])
      else (.ok (some c), r.2)
    | none =>
      let fid := t0.prev_tx_id
      match conf fid with
      | none =>
        (.error (.unconfirmedFundingTransaction fid),
          r.2 ++ [RelayCall.confirmations fid])
      | some _ =>
        (.ok (some 0), r.2 ++ [RelayCall.confirmations fid, RelayCall.send t0])

/-- C8: on an empty anchoring chain, the sync task run with no last known
confirmed index returns Ok None and performs no relay call at all, whatever
the relay would answer. -/
theorem c8_sync_empty_chain (conf : Nat → Option Nat) :
    syncProcess [] conf none = (Except.ok none, []) := rfl

/-! The protobuf-backed BinaryMap codec (src/proto/binary_map.rs).  Byte
strings are lists of naturals below 256.  The wire format of the two
protobuf messages involved is implemented: the KeyValue message has the
bytes fields key (number 1, tag byte 10) and value (number 2, tag byte 18),
and the BinaryMap message is a repeated KeyValue field (number 1, tag byte
10); rust-protobuf omits empty bytes fields and length-delimits nested
messages with base-128 varints. -/

/-- Protobuf base-128 varint encoding of a natural number: little-endian
groups of seven bits, high bit 128 marking continuation. -/
def varintEncode (n : Nat) : List Nat :=
  if h : n < 128 then [n]
  else (n % 128 + 128) :: varintEncode (n / 128)
termination_by n
decreasing_by
  exact Nat.div_lt_self (by omega) (by omega)

/-- Protobuf varint decoding: the decoded number and the remaining bytes. -/
def varintDecode : List Nat → Option (Nat × List Nat)
  | [] => none
  | b :: rest =>
    if b < 128 then some (b, rest)
    else
      match varintDecode rest with
      | some p => some (b - 128 + 128 * p.1, p.2)
      | none => none

/-- A varint encoding is never empty. -/
theorem varintEncode_length_pos (n : Nat) : 0 < (varintEncode n).length := by
  rw [varintEncode]
  split
  · simp
  · simp

/-- Decoding after encoding recovers the number and leaves the rest. -/
theorem varint_roundtrip (n : Nat) (rest : List Nat) :
    varintDecode (varintEncode n ++ rest) = some (n, rest) := by
  induction n using Nat.strong_induction_on with
  | _ n ih =>
    rw [varintEncode]
    by_cases h : n < 128
    · rw [dif_pos h]
      simp [varintDecode, h]
    · rw [dif_neg h]
      rw [List.cons_append, varintDecode]
      rw [if_neg (by omega)]
      simp only [ih (n / 128) (Nat.div_lt_self (by omega) (by omega))]
      have h3 : n % 128 + 128 - 128 + 128 * (n / 128) = n := by
        have := Nat.mod_add_div n 128
        omega
      rw [h3]

/-- Decoding a varint consumes at least one byte. -/
theorem varintDecode_length (l : List Nat) (n : Nat) (r : List Nat)
    (h : varintDecode l = some (n, r)) : r.length < l.length := by
  induction l generalizing n r with
  | nil => exact Option.noConfusion h
  | cons b rest ih =>
    rw [varintDecode] at h
    by_cases hb : b < 128
    · rw [if_pos hb] at h
      injection h with h2
      injection h2 with hb2 hr
      subst hr
      simp
    · rw [if_neg hb] at h
      cases hv : varintDecode rest with
      | none => rw [hv] at h; exact Option.noConfusion h
      | some p =>
        rw [hv] at h
        injection h with h2
        injection h2 with hb2 hr
        subst hr
        have := ih p.1 p.2 (by rw [hv])
        simp only [List.length_cons]
        omega

/-- A length-delimited protobuf field: tag byte, varint length, payload. -/
def encField (tag : Nat) (payload : List Nat) : List Nat :=
  tag :: varintEncode payload.length ++ payload

/-- Wire encoding of one KeyValue message (proto KeyValue, written by
pair_to_key_value_pb followed by the protobuf writer): bytes field 1 holds
the encoded key and bytes field 2 the encoded value; empty bytes fields are
omitted, as rust-protobuf does for fields at their default value. -/
def keyValueToBytes (kv : List Nat × List Nat) : List Nat :=
  (if kv.1 = [] then [] else encField 10 kv.1) ++
  (if kv.2 = [] then [] else encField 18 kv.2)

/-- Sequential parser for the fields of one KeyValue message: tag byte 10
sets the key, tag byte 18 sets the value, later occurrences win, a missing
field keeps its default; the fuel bounds the recursion by the input
length.  Unlike rust-protobuf this parser rejects unknown fields instead
of skipping them, which is irrelevant on the image of the encoder. -/
def parseFieldsF : Nat → List Nat → List Nat × List Nat → Option (List Nat × List Nat)
  | _, [], acc => some acc
  | 0, _ :: _, _ => none
  | fuel + 1, tag :: rest, acc =>
    match varintDecode rest with
    | none => none
    | some (len, rest2) =>
      if len ≤ rest2.length then
        if tag = 10 then parseFieldsF fuel (rest2.drop len) (rest2.take len, acc.2)
        else if tag = 18 then parseFieldsF fuel (rest2.drop len) (acc.1, rest2.take len)
        else none
      else none

/-- KeyValue.from_pb at the wire level: parse the message fields starting
from the default (empty) key and value. -/
def keyValueFromBytes (bytes : List Nat) : Option (List Nat × List Nat) :=
  parseFieldsF bytes.length bytes ([], [])

/-- The field parser ignores the exact fuel as long as it covers the input
length. -/
theorem parseFieldsF_fuel (f1 : Nat) : ∀ (f2 : Nat) (bytes : List Nat)
    (acc : List Nat × List Nat), bytes.length ≤ f1 → bytes.length ≤ f2 →
    parseFieldsF f1 bytes acc = parseFieldsF f2 bytes acc := by
  induction f1 with
  | zero =>
    intro f2 bytes acc h1 h2
    cases bytes with
    | nil => cases f2 <;> rfl
    | cons b bs => simp at h1
  | succ f ih =>
    intro f2 bytes acc h1 h2
    cases bytes with
    | nil => cases f2 <;> rfl
    | cons b bs =>
      cases f2 with
      | zero => simp at h2
      | succ g =>
        simp only [parseFieldsF]
        cases hv : varintDecode bs with
        | none => rfl
        | some p =>
          obtain ⟨len, rest2⟩ := p
          dsimp only
          by_cases hle : len ≤ rest2.length
          · rw [if_pos hle, if_pos hle]
            have hr2 : rest2.length < bs.length :=
              varintDecode_length bs len rest2 hv
            have hrem : (rest2.drop len).length ≤ f := by
              simp only [List.length_drop]
              simp only [List.length_cons] at h1
              omega
            have hrem2 : (rest2.drop len).length ≤ g := by
              simp only [List.length_drop]
              simp only [List.length_cons] at h2
              omega
            by_cases ht1 : b = 10
            · rw [if_pos ht1, if_pos ht1]
              exact ih g _ _ hrem hrem2
            · rw [if_neg ht1, if_neg ht1]
              by_cases ht2 : b = 18
              · rw [if_pos ht2, if_pos ht2]
                exact ih g _ _ hrem hrem2
              · rw [if_neg ht2, if_neg ht2]
          · rw [if_neg hle, if_neg hle]

/-- Parsing a key field consumes it, stores the key and continues. -/
theorem parseFieldsF_step1 (f : Nat) (k rest : List Nat) (acc : List Nat × List Nat)
    (hf : (encField 10 k ++ rest).length ≤ f) :
    parseFieldsF f (encField 10 k ++ rest) acc
      = parseFieldsF rest.length rest (k, acc.2) := by
  cases f with
  | zero =>
    exact absurd hf (by simp [encField])
  | succ f0 =>
    have hshape : encField 10 k ++ rest = 10 :: (varintEncode k.length ++ (k ++ rest)) := by
      simp [encField]
    rw [hshape]
    simp only [parseFieldsF, varint_roundtrip]
    have hle : k.length ≤ (k ++ rest).length := by simp
    rw [if_pos hle]
    simp only [if_true]
    rw [List.take_left' rfl, List.drop_left' rfl]
    apply parseFieldsF_fuel
    · have hv := varintEncode_length_pos k.length
      rw [hshape] at hf
      simp only [List.length_cons, List.length_append] at hf
      omega
    · exact Nat.le_refl _

/-- Parsing a value field consumes it, stores the value and continues. -/
theorem parseFieldsF_step2 (f : Nat) (v rest : List Nat) (acc : List Nat × List Nat)
    (hf : (encField 18 v ++ rest).length ≤ f) :
    parseFieldsF f (encField 18 v ++ rest) acc
      = parseFieldsF rest.length rest (acc.1, v) := by
  cases f with
  | zero =>
    exact absurd hf (by simp [encField])
  | succ f0 =>
    have hshape : encField 18 v ++ rest = 18 :: (varintEncode v.length ++ (v ++ rest)) := by
      simp [encField]
    rw [hshape]
    simp only [parseFieldsF, varint_roundtrip]
    have hle : v.length ≤ (v ++ rest).length := by simp
    rw [if_pos hle]
    simp only [if_true]
    rw [List.take_left' rfl, List.drop_left' rfl]
    apply parseFieldsF_fuel
    · have hv := varintEncode_length_pos v.length
      rw [hshape] at hf
      simp only [List.length_cons, List.length_append] at hf
      omega
    · exact Nat.le_refl _

/-- Decoding an encoded KeyValue message recovers the pair. -/
theorem keyValue_roundtrip (kv : List Nat × List Nat) :
    keyValueFromBytes (keyValueToBytes kv) = some kv := by
  obtain ⟨k, v⟩ := kv
  by_cases hk : k = []
  · by_cases hv : v = []
    · subst hk; subst hv
      rfl
    · subst hk
      unfold keyValueFromBytes keyValueToBytes
      rw [if_pos rfl, if_neg hv, List.nil_append]
      rw [show encField 18 v = encField 18 v ++ [] from (List.append_nil _).symm]
      rw [parseFieldsF_step2 _ v [] ([], []) (by simp)]
      rfl
  · by_cases hv : v = []
    · subst hv
      unfold keyValueFromBytes keyValueToBytes
      rw [if_neg hk, if_pos rfl, List.append_nil]
      rw [show encField 10 k = encField 10 k ++ [] from (List.append_nil _).symm]
      rw [parseFieldsF_step1 _ k [] ([], []) (by simp)]
      rfl
    · unfold keyValueFromBytes keyValueToBytes
      rw [if_neg hk, if_neg hv]
      rw [parseFieldsF_step1 _ k (encField 18 v) ([], []) (by simp)]
      rw [show encField 18 v = encField 18 v ++ [] from (List.append_nil _).symm]
      rw [parseFieldsF_step2 _ v [] (k, []) (by simp)]
      rfl

/-- BinaryMap (src/proto/binary_map.rs): a protobuf wrapper around a
BTreeMap, modelled as the list of its entries; the BTreeMap invariant
(strictly ascending keys in the Ord of K) is stated as a hypothesis where
needed and established by btreeOfList. -/
structure BinaryMap (K V : Type) where
  entries : List (K × V)
  deriving DecidableEq

/-- BinaryMap::to_pb with the keys and values already passed through their
own BinaryValue encoders (pair_to_key_value_pb): the key-value pairs in the
BTreeMap iteration order, each as a pair of byte strings. -/
def binaryMapToPb {K V : Type} (encK : K → List Nat) (encV : V → List Nat)
    (m : BinaryMap K V) : List (List Nat × List Nat) :=
  m.entries.map (fun p => (encK p.1, encV p.2))

/-- Wire encoding of one repeated-field element of the BinaryMap message:
the KeyValue message, length-delimited under tag byte 10. -/
def encKeyValueMsg (kv : List Nat × List Nat) : List Nat :=
  encField 10 (keyValueToBytes kv)

/-- BinaryValue::to_bytes for BinaryMap (to_pb followed by
write_to_bytes): the concatenated encodings of the repeated KeyValue
elements, in map order. -/
def binaryMapToBytes {K V : Type} (encK : K → List Nat) (encV : V → List Nat)
    (m : BinaryMap K V) : List Nat :=
  ((binaryMapToPb encK encV m).map encKeyValueMsg).flatten

/-- ObjectHash::object_hash for BinaryMap: the content hash of the
serialized bytes, for an arbitrary hash function (exonum uses SHA-256, an
external primitive). -/
def binaryMapObjectHash {K V : Type} (hashFn : List Nat → Nat)
    (encK : K → List Nat) (encV : V → List Nat) (m : BinaryMap K V) : Nat :=
  hashFn (binaryMapToBytes encK encV m)

/-- Parser for the repeated KeyValue field of the BinaryMap message
(merge_from_bytes): each element is length-delimited under tag byte 10 and
parsed as a KeyValue message; the fuel bounds the recursion by the input
length. -/
def parseRepeatedF : Nat → List Nat → List (List Nat × List Nat) →
    Option (List (List Nat × List Nat))
  | _, [], acc => some acc
  | 0, _ :: _, _ => none
  | fuel + 1, tag :: rest, acc =>
    match varintDecode rest with
    | none => none
    | some (len, rest2) =>
      if len ≤ rest2.length then
        if tag = 10 then
          match keyValueFromBytes (rest2.take len) with
          | some kv => parseRepeatedF fuel (rest2.drop len) (acc ++ [kv])
          | none => none
        else none
      else none

/-- The repeated-field parser ignores the exact fuel as long as it covers
the input length. -/
theorem parseRepeatedF_fuel (f1 : Nat) : ∀ (f2 : Nat) (bytes : List Nat)
    (acc : List (List Nat × List Nat)), bytes.length ≤ f1 → bytes.length ≤ f2 →
    parseRepeatedF f1 bytes acc = parseRepeatedF f2 bytes acc := by
  induction f1 with
  | zero =>
    intro f2 bytes acc h1 h2
    cases bytes with
    | nil => cases f2 <;> rfl
    | cons b bs => simp at h1
  | succ f ih =>
    intro f2 bytes acc h1 h2
    cases bytes with
    | nil => cases f2 <;> rfl
    | cons b bs =>
      cases f2 with
      | zero => simp at h2
      | succ g =>
        simp only [parseRepeatedF]
        cases hv : varintDecode bs with
        | none => rfl
        | some p =>
          obtain ⟨len, rest2⟩ := p
          dsimp only
          by_cases hle : len ≤ rest2.length
          · rw [if_pos hle, if_pos hle]
            have hr2 : rest2.length < bs.length :=
              varintDecode_length bs len rest2 hv
            have hrem : (rest2.drop len).length ≤ f := by
              simp only [List.length_drop]
              simp only [List.length_cons] at h1
              omega
            have hrem2 : (rest2.drop len).length ≤ g := by
              simp only [List.length_drop]
              simp only [List.length_cons] at h2
              omega
            by_cases ht1 : b = 10
            · rw [if_pos ht1, if_pos ht1]
              cases hkv : keyValueFromBytes (rest2.take len) with
              | none => rfl
              | some kv =>
                dsimp only
                exact ih g _ _ hrem hrem2
            · rw [if_neg ht1, if_neg ht1]
          · rw [if_neg hle, if_neg hle]

/-- Parsing one encoded repeated element consumes it, appends the decoded
pair and continues. -/
theorem parseRepeatedF_step (f : Nat) (p rest : List Nat)
    (acc : List (List Nat × List Nat)) (kv : List Nat × List Nat)
    (hp : keyValueFromBytes p = some kv)
    (hf : (encField 10 p ++ rest).length ≤ f) :
    parseRepeatedF f (encField 10 p ++ rest) acc
      = parseRepeatedF rest.length rest (acc ++ [kv]) := by
  cases f with
  | zero =>
    exact absurd hf (by simp [encField])
  | succ f0 =>
    have hshape : encField 10 p ++ rest = 10 :: (varintEncode p.length ++ (p ++ rest)) := by
      simp [encField]
    rw [hshape]
    simp only [parseRepeatedF, varint_roundtrip]
    have hle : p.length ≤ (p ++ rest).length := by simp
    rw [if_pos hle]
    simp only [if_true]
    rw [List.take_left' rfl, List.drop_left' rfl, hp]
    dsimp only
    apply parseRepeatedF_fuel
    · have hv := varintEncode_length_pos p.length
      rw [hshape] at hf
      simp only [List.length_cons, List.length_append] at hf
      omega
    · exact Nat.le_refl _

/-- Parsing the concatenated encodings of a pair list recovers the list. -/
theorem parseRepeatedF_encode (kvs : List (List Nat × List Nat)) :
    ∀ acc, parseRepeatedF ((kvs.map encKeyValueMsg).flatten).length
        ((kvs.map encKeyValueMsg).flatten) acc = some (acc ++ kvs) := by
  induction kvs with
  | nil =>
    intro acc
    simp [parseRepeatedF]
  | cons kv rest ih =>
    intro acc
    have hjoin : ((kv :: rest).map encKeyValueMsg).flatten
        = encField 10 (keyValueToBytes kv) ++ ((rest.map encKeyValueMsg).flatten) := by
      simp [encKeyValueMsg]
    rw [hjoin]
    rw [parseRepeatedF_step _ (keyValueToBytes kv) _ acc kv
      (keyValue_roundtrip kv) (Nat.le_refl _)]
    rw [ih (acc ++ [kv])]
    simp

/-- BTreeMap::insert on the sorted entry list: place the pair at its
position in the key order, overwriting the value at an equal key. -/
def btreeInsert {K V : Type} [LinearOrder K] :
    List (K × V) → K × V → List (K × V)
  | [], p => [p]
  | q :: rest, p =>
    if p.1 < q.1 then p :: q :: rest
    else if p.1 = q.1 then p :: rest
    else q :: btreeInsert rest p

/-- Collecting an iterator of pairs into a BTreeMap: fold the inserts, the
last value winning at duplicate keys. -/
def btreeOfList {K V : Type} [LinearOrder K] (l : List (K × V)) : List (K × V) :=
  l.foldl btreeInsert []

/-- KeyValue::from_pb composed over a pair list (from_pb of BinaryMap
before collecting): decode every key and value, failing on the first
undecodable entry. -/
def decodePairs {K V : Type} (decK : List Nat → Option K)
    (decV : List Nat → Option V) :
    List (List Nat × List Nat) → Option (List (K × V))
  | [] => some []
  | kv :: rest =>
    match decK kv.1, decV kv.2 with
    | some k, some v =>
      match decodePairs decK decV rest with
      | some l => some ((k, v) :: l)
      | none => none
    | _, _ => none

/-- BinaryValue::from_bytes for BinaryMap: parse the repeated KeyValue
elements, decode every pair and collect the result into a BTreeMap. -/
def binaryMapFromBytes {K V : Type} [LinearOrder K]
    (decK : List Nat → Option K) (decV : List Nat → Option V)
    (bytes : List Nat) : Option (BinaryMap K V) :=
  match parseRepeatedF bytes.length bytes [] with
  | none => none
  | some kvs =>
    match decodePairs decK decV kvs with
    | none => none
    | some l => some { entries := btreeOfList l }

/-- Decoding the encoded pairs recovers them when both element codecs
invert their encoders. -/
theorem decodePairs_encode {K V : Type} (encK : K → List Nat)
    (decK : List Nat → Option K) (encV : V → List Nat)
    (decV : List Nat → Option V)
    (hK : ∀ k, decK (encK k) = some k) (hV : ∀ v, decV (encV v) = some v)
    (l : List (K × V)) :
    decodePairs decK decV (l.map (fun p => (encK p.1, encV p.2))) = some l := by
  induction l with
  | nil => rfl
  | cons p rest ih =>
    obtain ⟨k, v⟩ := p
    simp only [List.map_cons, decodePairs, hK, hV, ih]

/-- Inserting a pair whose key is above every key of the list appends it. -/
theorem btreeInsert_append {K V : Type} [LinearOrder K]
    (l : List (K × V)) (p : K × V) (h : ∀ q ∈ l, q.1 < p.1) :
    btreeInsert l p = l ++ [p] := by
  induction l with
  | nil => rfl
  | cons q rest ih =>
    have hq : q.1 < p.1 := h q (by simp)
    rw [btreeInsert, if_neg (lt_asymm hq), if_neg (ne_of_gt hq)]
    rw [ih fun x hx => h x (by simp [hx])]
    rfl

/-- Folding inserts over pairs whose concatenation with the accumulator is
strictly sorted keeps the list as it is. -/
theorem foldl_btreeInsert_sorted {K V : Type} [LinearOrder K]
    (l : List (K × V)) : ∀ acc : List (K × V),
    (acc ++ l).Pairwise (fun a b => a.1 < b.1) →
    l.foldl btreeInsert acc = acc ++ l := by
  induction l with
  | nil =>
    intro acc _
    simp
  | cons p rest ih =>
    intro acc h
    have hacc : ∀ q ∈ acc, q.1 < p.1 := by
      intro q hq
      exact (List.pairwise_append.mp h).2.2 q hq p (by simp)
    rw [List.foldl_cons, btreeInsert_append acc p hacc]
    rw [ih (acc ++ [p]) (by rw [List.append_assoc]; simpa using h)]
    simp

/-- Collecting a strictly sorted pair list into a BTreeMap is the
identity. -/
theorem btreeOfList_sorted_id {K V : Type} [LinearOrder K]
    (l : List (K × V)) (hl : l.Pairwise (fun a b => a.1 < b.1)) :
    btreeOfList l = l := by
  have := foldl_btreeInsert_sorted l [] (by simpa using hl)
  simpa [btreeOfList] using this

/-- Every element of an insert is the new pair or an old element. -/
theorem mem_btreeInsert {K V : Type} [LinearOrder K]
    (l : List (K × V)) (p x : K × V) (hx : x ∈ btreeInsert l p) :
    x = p ∨ x ∈ l := by
  induction l with
  | nil =>
    rw [btreeInsert] at hx
    simp at hx
    exact Or.inl hx
  | cons q rest ih =>
    rw [btreeInsert] at hx
    by_cases h1 : p.1 < q.1
    · rw [if_pos h1] at hx
      rcases List.mem_cons.mp hx with h | h
      · exact Or.inl h
      · exact Or.inr h
    · rw [if_neg h1] at hx
      by_cases h2 : p.1 = q.1
      · rw [if_pos h2] at hx
        rcases List.mem_cons.mp hx with h | h
        · exact Or.inl h
        · exact Or.inr (List.mem_cons_of_mem q h)
      · rw [if_neg h2] at hx
        rcases List.mem_cons.mp hx with h | h
        · exact Or.inr (h ▸ List.mem_cons_self q rest)
        · rcases ih h with h3 | h3
          · exact Or.inl h3
          · exact Or.inr (List.mem_cons_of_mem q h3)

/-- Inserting into a strictly sorted entry list keeps it strictly
sorted. -/
theorem btreeInsert_pairwise {K V : Type} [LinearOrder K]
    (l : List (K × V)) (p : K × V)
    (h : l.Pairwise (fun a b => a.1 < b.1)) :
    (btreeInsert l p).Pairwise (fun a b => a.1 < b.1) := by
  induction l with
  | nil =>
    rw [btreeInsert]
    simp
  | cons q rest ih =>
    obtain ⟨hq, hrest⟩ := List.pairwise_cons.mp h
    rw [btreeInsert]
    by_cases h1 : p.1 < q.1
    · rw [if_pos h1]
      refine List.pairwise_cons.mpr ⟨?_, h⟩
      intro x hx
      rcases List.mem_cons.mp hx with hh | hh
      · rw [hh]; exact h1
      · exact lt_trans h1 (hq x hh)
    · rw [if_neg h1]
      by_cases h2 : p.1 = q.1
      · rw [if_pos h2]
        refine List.pairwise_cons.mpr ⟨?_, hrest⟩
        intro x hx
        rw [h2]
        exact hq x hx
      · rw [if_neg h2]
        have hqp : q.1 < p.1 := by
          rcases lt_trichotomy p.1 q.1 with hh | hh | hh
          · exact absurd hh h1
          · exact absurd hh h2
          · exact hh
        refine List.pairwise_cons.mpr ⟨?_, ih hrest⟩
        intro x hx
        rcases mem_btreeInsert rest p x hx with hh | hh
        · rw [hh]; exact hqp
        · exact hq x hh

/-- Collecting any pair list into a BTreeMap yields a strictly sorted
entry list. -/
theorem btreeOfList_pairwise {K V : Type} [LinearOrder K]
    (l : List (K × V)) :
    (btreeOfList l).Pairwise (fun a b => a.1 < b.1) := by
  suffices h : ∀ acc : List (K × V), acc.Pairwise (fun a b => a.1 < b.1) →
      (l.foldl btreeInsert acc).Pairwise (fun a b => a.1 < b.1) by
    exact h [] (by simp)
  induction l with
  | nil =>
    intro acc hacc
    simpa using hacc
  | cons p rest ih =>
    intro acc hacc
    rw [List.foldl_cons]
    exact ih (btreeInsert acc p) (btreeInsert_pairwise acc p hacc)

/-- C4: decoding the bytes produced by encoding a BinaryMap yields the map
again, whenever the key and value codecs invert their encoders and the
entry list satisfies the BTreeMap invariant; and object_hash is the hash
of exactly the serialized bytes, for any hash function. -/
theorem c4_binary_map_roundtrip {K V : Type} [LinearOrder K]
    (encK : K → List Nat) (decK : List Nat → Option K)
    (encV : V → List Nat) (decV : List Nat → Option V)
    (hK : ∀ k, decK (encK k) = some k) (hV : ∀ v, decV (encV v) = some v)
    (m : BinaryMap K V) (hm : m.entries.Pairwise (fun a b => a.1 < b.1))
    (hashFn : List Nat → Nat) :
    binaryMapFromBytes decK decV (binaryMapToBytes encK encV m) = some m ∧
    binaryMapObjectHash hashFn encK encV m
      = hashFn (binaryMapToBytes encK encV m) := by
  constructor
  · simp only [binaryMapFromBytes, binaryMapToBytes, binaryMapToPb,
      parseRepeatedF_encode, List.nil_append,
      decodePairs_encode encK decK encV decV hK hV,
      btreeOfList_sorted_id m.entries hm]
  · rfl

/-- Singleton-list codec on naturals used by the C4 witness. -/
def natEnc (n : Nat) : List Nat := [n]

/-- Inverse of natEnc: decode a singleton list, reject anything else. -/
def natDec : List Nat → Option Nat
  | [n] => some n
  | _ => none

/-- Map used by the C4 witness. -/
def c4Map : BinaryMap Nat Nat := { entries := [(1, 5), (2, 7)] }

/-- Witness for C4 at a two-entry map over the singleton codec. -/
theorem c4_binary_map_roundtrip_witness :
    (∀ k : Nat, natDec (natEnc k) = some k) ∧
    (∀ v : Nat, natDec (natEnc v) = some v) ∧
    c4Map.entries.Pairwise (fun a b => a.1 < b.1) ∧
    (binaryMapFromBytes natDec natDec (binaryMapToBytes natEnc natEnc c4Map)
        = some c4Map ∧
      binaryMapObjectHash List.sum natEnc natEnc c4Map
        = List.sum (binaryMapToBytes natEnc natEnc c4Map)) :=
  ⟨fun k => rfl, fun v => rfl, by decide,
    c4_binary_map_roundtrip natEnc natDec natEnc natDec
      (fun k => rfl) (fun v => rfl) c4Map (by decide) List.sum⟩

/-- Little-endian two-byte encoding: the exonum BinaryValue encoding of a
u16 key. -/
def u16Enc (n : Nat) : List Nat := [n % 256, n / 256 % 256]

/-- Map used by the C5 counterexample: keys 1 and 256 in BTreeMap order. -/
def c5Map : BinaryMap Nat Nat := { entries := [(1, 0), (256, 0)] }

/-- Lexicographic order on byte strings: the sort order the claim
asserts for the serialized keys. -/
def bytesLexLe : List Nat → List Nat → Bool
  | [], _ => true
  | _ :: _, [] => false
  | a :: as, b :: bs =>
    if a < b then true else if b < a then false else bytesLexLe as bs

/-- C5 fails as stated: to_pb lists the pairs in BTreeMap (key Ord) order;
for the little-endian encoded u16 keys 1 and 256 that order is not sorted
by the canonical byte encoding, since [1, 0] comes before [0, 1] in map
order but after it lexicographically. -/
theorem c5_counterexample :
    c5Map.entries.Pairwise (fun a b => a.1 < b.1) ∧
    ¬ List.Pairwise (fun a b => bytesLexLe a b = true)
        ((binaryMapToPb u16Enc u16Enc c5Map).map (fun kv => kv.1)) := by
  decide

/-- C5 amended: to_pb lists the key-value pairs in a deterministic order,
strictly increasing in the key order of K (the BTreeMap iteration order);
that order need not coincide with the order of the canonical byte
encodings of the keys. -/
theorem c5_amended_order {K V : Type} [LinearOrder K]
    (encK : K → List Nat) (encV : V → List Nat) (l : List (K × V)) :
    (btreeOfList l).Pairwise (fun a b : K × V => a.1 < b.1) ∧
    binaryMapToPb encK encV { entries := btreeOfList l }
      = (btreeOfList l).map (fun p => (encK p.1, encV p.2)) :=
  ⟨btreeOfList_pairwise l, rfl⟩

end BtcAnchoring
